import Mathlib

/-!
Verification of the LSB steganography codec (`steganography.py`).

The codec is modelled shallowly:

* a pixel buffer is a `List Nat` of 8-bit channel values (the flattened
  `numpy` array, row-major, channel-minor);
* a text is a `List Nat` of character code points (`ord`/`chr`);
* `Steganography._text_to_binary` / `_binary_to_text` become `text_to_binary`
  and `binary_to_text` over `List Bool` bitstreams;
* `Steganography.encode` / `decode` / `get_max_capacity` become
  `encodeBuffer` / `decodeLoop` / `get_max_capacity`, with the `PIL` image
  I/O boundary modelled by an `Except String RGBImage` argument in the
  `encodeFull` / `decodeFull` wrappers (the `try`/`except` blocks of the
  source);
* Python's floor division `//` is `Int.fdiv`, Python's substring test
  `p in s` is `hasSub`, and `s.split(p)[0]` is `beforeFirst`.
-/

namespace Stego

/-- The terminator constant `Steganography.DELIMITER = "<<END>>"`,
as its list of code points. -/
def DELIMITER : List Nat := [60, 60, 69, 78, 68, 62, 62]

/-- Fuel-driven core of the binary expansion of a natural number,
least-significant bit first (the digits produced by Python's `format(n, 'b')`,
reversed).  The fuel argument only forces structural termination; it is
always called with enough fuel. -/
def natBitsAux : Nat → Nat → List Bool
  | _, 0 => []
  | 0, _ + 1 => []
  | fuel + 1, n + 1 => decide ((n + 1) % 2 = 1) :: natBitsAux fuel ((n + 1) / 2)

/-- Binary expansion of `n`, least-significant bit first; empty for `0`. -/
def natToBits (n : Nat) : List Bool := natBitsAux n n

/-- Model of Python's `format(n, '08b')`: the binary expansion of `n`,
most-significant bit first, left-padded with zeros to a minimum width of 8.
For `n ≥ 256` this produces more than 8 bits (the format never truncates). -/
def format08b (n : Nat) : List Bool :=
  List.replicate (8 - (natToBits n).length) false ++ (natToBits n).reverse

/-- `Steganography._text_to_binary`: concatenate the `'08b'` renderings of the
code points of `text`, in input order. -/
def text_to_binary (text : List Nat) : List Bool :=
  (text.map format08b).flatten

/-- Python's `int(byte, 2)`: value of a bit list read most-significant first. -/
def bitsToNat (bits : List Bool) : Nat :=
  bits.foldl (fun a b => 2 * a + (if b then 1 else 0)) 0

/-- `Steganography._binary_to_text`: split the bitstream into consecutive
8-bit groups and decode each full group with `chr (int (byte, 2))`;
a trailing group shorter than 8 bits is discarded. -/
def binary_to_text : List Bool → List Nat
  | b1 :: b2 :: b3 :: b4 :: b5 :: b6 :: b7 :: b8 :: rest =>
      bitsToNat [b1, b2, b3, b4, b5, b6, b7, b8] :: binary_to_text rest
  | _ => []

/-- The readable-image data handed to the codec by `PIL`: dimensions plus the
flattened RGB channel list. -/
structure RGBImage where
  width : Nat
  height : Nat
  data : List Nat

/-- `Steganography.get_max_capacity`.  The `Except` argument models
`Image.open`: on any fault the `except` branch returns the sentinel `0`;
otherwise `max_chars = (width*height*3 - len(DELIMITER)*8) // 8` with
Python's floor division (`Int.fdiv`). -/
def get_max_capacity (img : Except String RGBImage) : Int :=
  match img with
  | Except.error _ => 0
  | Except.ok img =>
      let total_pixels : Int := (img.width : Int) * (img.height : Int)
      let total_bits : Int := total_pixels * 3
      let delimiter_bits : Int := (DELIMITER.length : Int) * 8
      let available_bits : Int := total_bits - delimiter_bits
      Int.fdiv available_bits 8

/-- The encode loop
`for i, bit in enumerate(binary_secret): flat[i] = (flat[i] & 0xFE) | int(bit)`:
overwrite the least significant bit of each of the first `bits.length`
channel values with the corresponding message bit. -/
def writeBits : List Nat → List Bool → List Nat
  | flat, [] => flat
  | [], _ :: _ => []
  | v :: flat, b :: bs => ((v &&& 254) ||| (if b then 1 else 0)) :: writeBits flat bs

/-- The core of `Steganography.encode` after the image has been flattened:
append the delimiter, convert to bits, reject an oversized bitstream before
touching the buffer, otherwise overwrite the LSBs.  `none` models the
`(False, "Error: Image too small...")` return. -/
def encodeBuffer (flat_array : List Nat) (secret_text : List Nat) : Option (List Nat) :=
  let binary_secret := text_to_binary (secret_text ++ DELIMITER)
  if binary_secret.length > flat_array.length then none
  else some (writeBits flat_array binary_secret)

/-- The least significant bit of a channel value (`value & 1`). -/
def lsb (v : Nat) : Bool := decide (v % 2 = 1)

/-- Model of Python's `startswith` on code-point lists: used to build the
substring test below. -/
def startsWith : List Nat → List Nat → Bool
  | [], _ => true
  | _ :: _, [] => false
  | a :: p, b :: s => a == b && startsWith p s

/-- Model of Python's substring containment `p in s`. -/
def hasSub (p : List Nat) : List Nat → Bool
  | [] => startsWith p []
  | s@(_ :: rest) => startsWith p s || hasSub p rest

/-- Model of Python's `s.split(p)[0]`: the segment of `s` strictly before the
first occurrence of `p` (all of `s` if `p` does not occur). -/
def beforeFirst (p : List Nat) : List Nat → List Nat
  | [] => []
  | c :: rest =>
      if startsWith p (c :: rest) then [] else c :: beforeFirst p rest

/-- The decode scan of `Steganography.decode`: walk the channel values,
append each LSB to `binary_message`, and after every full group of 8 bits
re-decode the entire bitstream and look for the delimiter; on the first match
return the text before it (`split(DELIMITER)[0]`). -/
def decodeLoop (binary_message : List Bool) : List Nat → Option (List Nat)
  | [] => none
  | value :: rest =>
      if 8 ≤ (binary_message ++ [lsb value]).length ∧
          (binary_message ++ [lsb value]).length % 8 = 0 then
        if hasSub DELIMITER (binary_to_text (binary_message ++ [lsb value])) then
          some (beforeFirst DELIMITER (binary_to_text (binary_message ++ [lsb value])))
        else decodeLoop (binary_message ++ [lsb value]) rest
      else decodeLoop (binary_message ++ [lsb value]) rest

/-- The core of `Steganography.decode` after flattening: scan with an empty
accumulated bitstream.  `none` models the `(False, "No hidden message...")`
return. -/
def decodeBuffer (flat_array : List Nat) : Option (List Nat) :=
  decodeLoop [] flat_array

/-- `Steganography.encode` with its I/O boundary: an unreadable image is the
`except` branch; a successful embed saves the mutated buffer (the `Option`
component) and reports success. -/
def encodeFull (img : Except String RGBImage) (secret_text : List Nat) :
    (Bool × String) × Option (List Nat) :=
  match img with
  | Except.error e => ((false, "Error during encoding: " ++ e), none)
  | Except.ok img =>
      match encodeBuffer img.data secret_text with
      | none =>
          ((false,
            "Error: Image too small to hide this message. Try a larger image or shorter text."),
            none)
      | some out => ((true, "Message successfully hidden in image!"), some out)

/-- `Steganography.decode` with its I/O boundary: the result is the success
flag together with either the extracted text (`Sum.inl`) or the error /
no-message string (`Sum.inr`). -/
def decodeFull (img : Except String RGBImage) : Bool × (List Nat ⊕ String) :=
  match img with
  | Except.error e => (false, Sum.inr ("Error during decoding: " ++ e))
  | Except.ok img =>
      match decodeBuffer img.data with
      | some message => (true, Sum.inl message)
      | none =>
          (false, Sum.inr
            "No hidden message found in this image. Make sure you're using an image that was encoded with this tool.")

/-- Character-level restatement of the decode scan: the delimiter test fires
exactly once per freshly completed 8-bit character, so the scan is a walk over
the decoded characters.  Used only as a proof device; `decodeLoop` is the
faithful translation. -/
def scanChars (acc : List Nat) : List Nat → Option (List Nat)
  | [] => none
  | c :: rest =>
      if hasSub DELIMITER (acc ++ [c]) then some (beforeFirst DELIMITER (acc ++ [c]))
      else scanChars (acc ++ [c]) rest

/-! ### Bit-level facts -/

theorem natBitsAux_zero (f : Nat) : natBitsAux f 0 = [] := by
  cases f <;> rfl

theorem natBitsAux_fuel (n : Nat) :
    ∀ f1 f2, n ≤ f1 → n ≤ f2 → natBitsAux f1 n = natBitsAux f2 n := by
  induction n using Nat.strong_induction_on with
  | _ n ih =>
    intro f1 f2 h1 h2
    match n, f1, f2 with
    | 0, f1, f2 => rw [natBitsAux_zero, natBitsAux_zero]
    | m + 1, g1 + 1, g2 + 1 =>
      show decide _ :: natBitsAux g1 ((m + 1) / 2) = decide _ :: natBitsAux g2 ((m + 1) / 2)
      have hlt : (m + 1) / 2 < m + 1 := Nat.div_lt_self (Nat.succ_pos m) (by omega)
      have hle : (m + 1) / 2 ≤ m := by omega
      rw [ih ((m + 1) / 2) hlt g1 g2 (by omega) (by omega)]

theorem natToBits_eq (n : Nat) :
    natToBits n = if n = 0 then [] else decide (n % 2 = 1) :: natToBits (n / 2) := by
  match n with
  | 0 => rfl
  | m + 1 =>
    show natBitsAux (m + 1) (m + 1) = _
    have hle : (m + 1) / 2 ≤ m := by omega
    show decide _ :: natBitsAux m ((m + 1) / 2) = _
    rw [if_neg (Nat.succ_ne_zero m), natToBits,
      natBitsAux_fuel ((m + 1) / 2) m ((m + 1) / 2) hle (Nat.le_refl _)]

theorem bitsToNat_append_singleton (xs : List Bool) (b : Bool) :
    bitsToNat (xs ++ [b]) = 2 * bitsToNat xs + (if b then 1 else 0) := by
  simp [bitsToNat, List.foldl_append]

theorem bitsToNat_replicate_false (k : Nat) (xs : List Bool) :
    bitsToNat (List.replicate k false ++ xs) = bitsToNat xs := by
  induction k with
  | zero => rfl
  | succ k ih =>
    have : List.replicate (k + 1) false ++ xs = false :: (List.replicate k false ++ xs) := by
      simp [List.replicate_succ]
    rw [this]
    simpa [bitsToNat] using ih

theorem bitsToNat_reverse_natToBits (n : Nat) :
    bitsToNat (natToBits n).reverse = n := by
  induction n using Nat.strong_induction_on with
  | _ n ih =>
    match n with
    | 0 => rfl
    | m + 1 =>
      rw [natToBits_eq]
      rw [if_neg (Nat.succ_ne_zero m)]
      rw [List.reverse_cons, bitsToNat_append_singleton]
      have hlt : (m + 1) / 2 < m + 1 := Nat.div_lt_self (Nat.succ_pos m) (by omega)
      rw [ih ((m + 1) / 2) hlt]
      rcases Nat.mod_two_eq_zero_or_one (m + 1) with h | h <;> simp [h] <;> omega

theorem natToBits_length_le_iff (n : Nat) :
    ∀ k, (natToBits n).length ≤ k ↔ n < 2 ^ k := by
  induction n using Nat.strong_induction_on with
  | _ n ih =>
    intro k
    match n with
    | 0 => simpa [natToBits, natBitsAux] using Nat.pos_pow_of_pos k (by omega)
    | m + 1 =>
      rw [natToBits_eq, if_neg (Nat.succ_ne_zero m)]
      match k with
      | 0 => simp
      | j + 1 =>
        have hlt : (m + 1) / 2 < m + 1 := Nat.div_lt_self (Nat.succ_pos m) (by omega)
        have := ih ((m + 1) / 2) hlt j
        simp only [List.length_cons]
        constructor
        · intro h
          have h2 : (m + 1) / 2 < 2 ^ j := this.mp (by omega)
          have := (Nat.div_lt_iff_lt_mul (k := 2) (by omega)).mp h2
          calc m + 1 < 2 ^ j * 2 := this
            _ = 2 ^ (j + 1) := by rw [Nat.pow_succ]
        · intro h
          have h2 : m + 1 < 2 ^ j * 2 := by rw [← Nat.pow_succ]; exact h
          have := this.mpr ((Nat.div_lt_iff_lt_mul (k := 2) (by omega)).mpr h2)
          omega

theorem format08b_length (n : Nat) :
    (format08b n).length = max 8 (natToBits n).length := by
  simp [format08b]
  omega

theorem format08b_length_of_byte {n : Nat} (h : n < 256) :
    (format08b n).length = 8 := by
  have h8 : (natToBits n).length ≤ 8 := (natToBits_length_le_iff n 8).mpr (by norm_num; omega)
  rw [format08b_length]
  omega

theorem format08b_length_ge (n : Nat) : 8 ≤ (format08b n).length := by
  rw [format08b_length]; omega

theorem format08b_length_gt {n : Nat} (h : 256 ≤ n) : 8 < (format08b n).length := by
  have h8 : ¬ (natToBits n).length ≤ 8 := by
    rw [natToBits_length_le_iff]
    norm_num
    omega
  rw [format08b_length]
  omega

theorem bitsToNat_format08b {n : Nat} (h : n < 256) : bitsToNat (format08b n) = n := by
  rw [format08b, bitsToNat_replicate_false, bitsToNat_reverse_natToBits]

/-! ### `binary_to_text` structure -/

theorem binary_to_text_small {l : List Bool} (h : l.length < 8) :
    binary_to_text l = [] := by
  rcases l with _ | ⟨a1, _ | ⟨a2, _ | ⟨a3, _ | ⟨a4, _ | ⟨a5, _ | ⟨a6, _ | ⟨a7, _ | ⟨a8, r⟩⟩⟩⟩⟩⟩⟩⟩ <;>
    first
      | rfl
      | (exfalso; simp only [List.length_cons, List.length_nil] at h; omega)

theorem binary_to_text_step {l : List Bool} (h : 8 ≤ l.length) :
    binary_to_text l = bitsToNat (l.take 8) :: binary_to_text (l.drop 8) := by
  rcases l with _ | ⟨a1, _ | ⟨a2, _ | ⟨a3, _ | ⟨a4, _ | ⟨a5, _ | ⟨a6, _ | ⟨a7, _ | ⟨a8, r⟩⟩⟩⟩⟩⟩⟩⟩ <;>
    first
      | rfl
      | (exfalso; simp only [List.length_cons, List.length_nil] at h; omega)

theorem binary_to_text_append :
    ∀ (n : Nat) (xs ys : List Bool), xs.length = n → n % 8 = 0 →
      binary_to_text (xs ++ ys) = binary_to_text xs ++ binary_to_text ys := by
  intro n
  induction n using Nat.strong_induction_on with
  | _ n ih =>
    intro xs ys hlen hmod
    match n, hmod with
    | 0, _ =>
      have : xs = [] := List.length_eq_zero.mp hlen
      subst this
      rfl
    | m + 8, hmod =>
      have h8 : 8 ≤ xs.length := by omega
      have h8' : 8 ≤ (xs ++ ys).length := by simp; omega
      rw [binary_to_text_step h8', binary_to_text_step h8]
      have ht : (xs ++ ys).take 8 = xs.take 8 := by
        rw [List.take_append_eq_append_take]
        have : 8 - xs.length = 0 := by omega
        simp [this]
      have hd : (xs ++ ys).drop 8 = xs.drop 8 ++ ys := by
        rw [List.drop_append_eq_append_drop]
        have : 8 - xs.length = 0 := by omega
        simp [this]
      rw [ht, hd, ih m (by omega) (xs.drop 8) ys (by simp; omega) (by omega)]
      simp

/-! ### `text_to_binary` facts -/

theorem text_to_binary_nil : text_to_binary [] = [] := rfl

theorem text_to_binary_cons (c : Nat) (t : List Nat) :
    text_to_binary (c :: t) = format08b c ++ text_to_binary t := by
  simp [text_to_binary]

theorem text_to_binary_length_of_bytes {t : List Nat} (h : ∀ c ∈ t, c < 256) :
    (text_to_binary t).length = 8 * t.length := by
  induction t with
  | nil => rfl
  | cons c t ih =>
    rw [text_to_binary_cons]
    have hc : c < 256 := h c (by simp)
    simp only [List.length_append, List.length_cons,
      format08b_length_of_byte hc, ih (fun x hx => h x (by simp [hx]))]
    ring

theorem text_to_binary_length_ge (t : List Nat) :
    8 * t.length ≤ (text_to_binary t).length := by
  induction t with
  | nil => simp [text_to_binary_nil]
  | cons c t ih =>
    rw [text_to_binary_cons]
    have := format08b_length_ge c
    simp only [List.length_append, List.length_cons]
    omega

theorem binary_to_text_text_to_binary {t : List Nat} (h : ∀ c ∈ t, c < 256) :
    binary_to_text (text_to_binary t) = t := by
  induction t with
  | nil => rfl
  | cons c t ih =>
    rw [text_to_binary_cons]
    have hc : c < 256 := h c (by simp)
    have hlen : (format08b c).length = 8 := format08b_length_of_byte hc
    rw [binary_to_text_append 8 (format08b c) (text_to_binary t) hlen (by omega),
      ih (fun x hx => h x (by simp [hx]))]
    have : binary_to_text (format08b c) = [bitsToNat (format08b c)] := by
      rw [binary_to_text_step (by omega)]
      have ht : (format08b c).take 8 = format08b c := List.take_of_length_le (by omega)
      have hd : (format08b c).drop 8 = [] := List.drop_eq_nil_of_le (by omega)
      rw [ht, hd]
      rfl
    rw [this, bitsToNat_format08b hc]
    rfl

theorem delimiter_bytes : ∀ c ∈ DELIMITER, c < 256 := by decide

theorem text_to_binary_delim_length {t : List Nat} (h : ∀ c ∈ t, c < 256) :
    (text_to_binary (t ++ DELIMITER)).length = 8 * (t.length + 7) := by
  have hall : ∀ c ∈ t ++ DELIMITER, c < 256 := by
    intro c hc
    rcases List.mem_append.mp hc with hc | hc
    · exact h c hc
    · exact delimiter_bytes c hc
  rw [text_to_binary_length_of_bytes hall]
  simp [DELIMITER]

/-! ### Substring machinery (`startsWith`, `hasSub`, `beforeFirst`) -/

theorem startsWith_iff_append {p s : List Nat} :
    startsWith p s = true ↔ ∃ u, s = p ++ u := by
  induction p generalizing s with
  | nil => simp [startsWith]
  | cons a p ih =>
    cases s with
    | nil =>
      simp only [startsWith]
      constructor
      · intro h
        exact absurd h (by simp)
      · rintro ⟨u, hu⟩
        exact absurd hu (by simp)
    | cons b s =>
      simp only [startsWith, Bool.and_eq_true, beq_iff_eq, ih]
      constructor
      · rintro ⟨rfl, u, rfl⟩
        exact ⟨u, rfl⟩
      · rintro ⟨u, hu⟩
        injection hu with h1 h2
        exact ⟨h1.symm, u, h2⟩

theorem startsWith_refl_append (p u : List Nat) : startsWith p (p ++ u) = true :=
  startsWith_iff_append.mpr ⟨u, rfl⟩

theorem startsWith_length {p s : List Nat} (h : startsWith p s = true) :
    p.length ≤ s.length := by
  obtain ⟨u, rfl⟩ := startsWith_iff_append.mp h
  simp

theorem startsWith_of_startsWith_append {p a b : List Nat}
    (h : startsWith p (a ++ b) = true) (hlen : p.length ≤ a.length) :
    startsWith p a = true := by
  obtain ⟨u, hu⟩ := startsWith_iff_append.mp h
  apply startsWith_iff_append.mpr
  refine ⟨a.drop p.length, ?_⟩
  have htake : a.take p.length = p := by
    have : (a ++ b).take p.length = a.take p.length := by
      rw [List.take_append_eq_append_take]
      have : p.length - a.length = 0 := by omega
      simp [this]
    rw [hu] at this
    rw [← this, List.take_append_eq_append_take]
    simp
  calc a = a.take p.length ++ a.drop p.length := (List.take_append_drop _ a).symm
    _ = p ++ a.drop p.length := by rw [htake]

theorem startsWith_append_right {p s : List Nat} (x : List Nat)
    (h : startsWith p s = true) : startsWith p (s ++ x) = true := by
  obtain ⟨u, rfl⟩ := startsWith_iff_append.mp h
  rw [List.append_assoc]
  exact startsWith_refl_append _ _

theorem hasSub_of_startsWith {p s : List Nat} (h : startsWith p s = true) :
    hasSub p s = true := by
  cases s with
  | nil => exact h
  | cons c rest => simp [hasSub, h]

theorem hasSub_length {p s : List Nat} (h : hasSub p s = true) :
    p.length ≤ s.length := by
  induction s with
  | nil => exact startsWith_length h
  | cons c rest ih =>
    rcases Bool.or_eq_true_iff.mp h with h | h
    · exact startsWith_length h
    · have := ih h
      simp only [List.length_cons]
      omega

theorem hasSub_append_right {p s : List Nat} (x : List Nat)
    (h : hasSub p s = true) : hasSub p (s ++ x) = true := by
  induction s with
  | nil =>
    have := startsWith_length h
    have hp : p = [] := by
      simpa using List.length_eq_zero.mp (by simpa using this)
    subst hp
    cases x with
    | nil => exact h
    | cons c rest => simp [hasSub, startsWith]
  | cons c rest ih =>
    rcases Bool.or_eq_true_iff.mp h with h | h
    · have := startsWith_append_right x h
      simp only [List.cons_append, hasSub]
      rw [Bool.or_eq_true_iff]
      left
      simpa using this
    · simp only [List.cons_append, hasSub]
      rw [Bool.or_eq_true_iff]
      right
      exact ih h

theorem hasSub_append_left {p t : List Nat} (x : List Nat)
    (h : hasSub p t = true) : hasSub p (x ++ t) = true := by
  induction x with
  | nil => exact h
  | cons c rest ih =>
    simp only [List.cons_append, hasSub]
    rw [Bool.or_eq_true_iff]
    right
    exact ih

theorem hasSub_of_startsWith_drop {p s : List Nat} :
    ∀ j, startsWith p (s.drop j) = true → hasSub p s = true := by
  induction s with
  | nil =>
    intro j h
    cases j with
    | zero => exact h
    | succ j => exact h
  | cons c rest ih =>
    intro j h
    cases j with
    | zero => exact hasSub_of_startsWith h
    | succ j =>
      simp only [List.drop_succ_cons] at h
      simp only [hasSub]
      rw [Bool.or_eq_true_iff]
      right
      exact ih j h

/-! ### Position of the first delimiter occurrence -/

theorem delimiter_length : DELIMITER.length = 7 := rfl

theorem delimiter_no_overlap :
    ∀ d, d < 7 → 1 ≤ d → ¬ (DELIMITER.take (7 - d) = DELIMITER.drop d) := by decide

theorem no_delim_before {T : List Nat} (t : List Nat)
    (hnd : hasSub DELIMITER T = false) :
    ∀ j, j < T.length → startsWith DELIMITER ((T ++ (DELIMITER ++ t)).drop j) = false := by
  intro j hj
  cases hv : startsWith DELIMITER ((T ++ (DELIMITER ++ t)).drop j)
  · rfl
  exfalso
  have hdropj : (T ++ (DELIMITER ++ t)).drop j = T.drop j ++ (DELIMITER ++ t) := by
    rw [List.drop_append_eq_append_drop]
    have : j - T.length = 0 := by omega
    simp [this]
  rw [hdropj] at hv
  have hd : (T.drop j).length = T.length - j := List.length_drop j T
  by_cases h7 : 7 ≤ T.length - j
  · have hsw : startsWith DELIMITER (T.drop j) = true :=
      startsWith_of_startsWith_append hv (by rw [delimiter_length]; omega)
    have : hasSub DELIMITER T = true := hasSub_of_startsWith_drop j hsw
    rw [hnd] at this
    exact Bool.false_ne_true this
  · set d := T.length - j with hdef
    have hd1 : 1 ≤ d := by omega
    have hd6 : d < 7 := by omega
    obtain ⟨u, hu⟩ := startsWith_iff_append.mp hv
    have htake : T.drop j ++ DELIMITER.take (7 - d) = DELIMITER := by
      have h1 : (T.drop j ++ (DELIMITER ++ t)).take 7
          = T.drop j ++ (DELIMITER ++ t).take (7 - d) := by
        rw [List.take_append_eq_append_take]
        congr 1
        · exact List.take_of_length_le (by omega)
        · rw [hd]
      have h2 : (DELIMITER ++ t).take (7 - d) = DELIMITER.take (7 - d) := by
        rw [List.take_append_eq_append_take]
        have : 7 - d - DELIMITER.length = 0 := by rw [delimiter_length]; omega
        simp [this]
      have h3 : (DELIMITER ++ u).take 7 = DELIMITER := by
        rw [List.take_append_eq_append_take]
        have h4 : DELIMITER.take 7 = DELIMITER := List.take_of_length_le (by rw [delimiter_length])
        have : 7 - DELIMITER.length = 0 := by rw [delimiter_length]
        simp [this, h4]
      have key := congrArg (List.take 7) hu
      rw [h1, h2, h3] at key
      exact key
    have hdrop : DELIMITER.take (7 - d) = DELIMITER.drop d := by
      have := congrArg (List.drop d) htake
      rw [List.drop_append_eq_append_drop] at this
      rw [hd] at this
      have hz : d - d = 0 := by omega
      have hz2 : (T.drop j).drop d = [] := by
        apply List.drop_eq_nil_of_le
        omega
      rw [hdef] at this
      simp only [hz, hz2, List.drop_zero, List.nil_append] at this
      rw [← hdef] at this
      exact this
    exact delimiter_no_overlap d hd6 hd1 hdrop

theorem beforeFirst_append_delim {T : List Nat} (t : List Nat)
    (h : ∀ j, j < T.length → startsWith DELIMITER ((T ++ (DELIMITER ++ t)).drop j) = false) :
    beforeFirst DELIMITER (T ++ (DELIMITER ++ t)) = T := by
  induction T with
  | nil =>
    simp only [List.nil_append]
    cases ht : DELIMITER ++ t with
    | nil => rfl
    | cons c rest =>
      rw [beforeFirst]
      rw [← ht, if_pos (startsWith_refl_append DELIMITER t)]
  | cons c T ih =>
    have h0 : startsWith DELIMITER (c :: (T ++ (DELIMITER ++ t))) = false := by
      have := h 0 (by simp)
      simpa using this
    rw [List.cons_append, beforeFirst, if_neg (by rw [h0]; simp)]
    congr 1
    apply ih
    intro j hj
    have := h (j + 1) (by simp; omega)
    simpa using this

theorem beforeFirst_append_of_hasSub {T : List Nat} (X : List Nat)
    (h : hasSub DELIMITER T = true) :
    beforeFirst DELIMITER (T ++ X) = beforeFirst DELIMITER T := by
  induction T with
  | nil => exact absurd h (by decide)
  | cons c T ih =>
    cases hv : startsWith DELIMITER (c :: T)
    · have hT : hasSub DELIMITER T = true := by
        have := h
        simp only [hasSub, hv, Bool.false_or] at this
        exact this
      have h7 : 7 ≤ T.length := by
        have := hasSub_length hT
        rw [delimiter_length] at this
        exact this
      have hv2 : startsWith DELIMITER ((c :: T) ++ X) = false := by
        cases hw : startsWith DELIMITER ((c :: T) ++ X)
        · rfl
        exfalso
        have := startsWith_of_startsWith_append hw (by rw [delimiter_length]; simp; omega)
        rw [hv] at this
        exact Bool.false_ne_true this
      rw [List.cons_append, beforeFirst, if_neg (by rw [← List.cons_append, hv2]; simp)]
      rw [beforeFirst, if_neg (by rw [hv]; simp)]
      congr 1
      exact ih hT
    · have hv2 : startsWith DELIMITER ((c :: T) ++ X) = true :=
        startsWith_append_right X hv
      rw [List.cons_append, beforeFirst, if_pos (by rw [← List.cons_append, hv2])]
      rw [beforeFirst, if_pos (by rw [hv])]

theorem beforeFirst_length_of_hasSub {T : List Nat}
    (h : hasSub DELIMITER T = true) :
    (beforeFirst DELIMITER T).length + 7 ≤ T.length := by
  induction T with
  | nil => exact absurd h (by decide)
  | cons c T ih =>
    cases hv : startsWith DELIMITER (c :: T)
    · have hT : hasSub DELIMITER T = true := by
        have := h
        simp only [hasSub, hv, Bool.false_or] at this
        exact this
      rw [beforeFirst, if_neg (by rw [hv]; simp)]
      have := ih hT
      simp only [List.length_cons]
      omega
    · rw [beforeFirst, if_pos (by rw [hv])]
      have := startsWith_length hv
      rw [delimiter_length] at this
      simpa using this

/-! ### The character-level scan -/

theorem scanChars_none : ∀ (chars acc : List Nat),
    hasSub DELIMITER (acc ++ chars) = false → scanChars acc chars = none := by
  intro chars
  induction chars with
  | nil => intro acc _; rfl
  | cons c cs ih =>
    intro acc h
    have hv : hasSub DELIMITER (acc ++ [c]) = false := by
      cases hw : hasSub DELIMITER (acc ++ [c])
      · rfl
      exfalso
      have := hasSub_append_right cs hw
      rw [List.append_assoc] at this
      simp only [List.singleton_append] at this
      rw [h] at this
      exact Bool.false_ne_true this
    rw [scanChars, if_neg (by rw [hv]; simp)]
    apply ih
    rw [List.append_assoc]
    simpa using h

theorem scanChars_found : ∀ (chars acc : List Nat),
    hasSub DELIMITER acc = false →
    hasSub DELIMITER (acc ++ chars) = true →
    scanChars acc chars = some (beforeFirst DELIMITER (acc ++ chars)) := by
  intro chars
  induction chars with
  | nil =>
    intro acc hacc h
    exfalso
    rw [List.append_nil, hacc] at h
    exact Bool.false_ne_true h
  | cons c cs ih =>
    intro acc hacc h
    have hsplit : acc ++ c :: cs = (acc ++ [c]) ++ cs := by simp
    cases hv : hasSub DELIMITER (acc ++ [c])
    · rw [scanChars, if_neg (by rw [hv]; simp)]
      rw [hsplit] at h
      rw [ih (acc ++ [c]) hv h, hsplit]
    · rw [scanChars, if_pos (by rw [hv])]
      rw [hsplit, beforeFirst_append_of_hasSub cs hv]

/-! ### The write loop -/

theorem lsb_write (v : Nat) (b : Bool) :
    lsb ((v &&& 254) ||| (if b then 1 else 0)) = b := by
  rw [lsb, ← Nat.testBit_zero, Nat.testBit_or, Nat.testBit_and]
  have h254 : Nat.testBit 254 0 = false := by decide
  rw [h254]
  cases b <;> simp [Nat.testBit_zero]

theorem mask_write (v : Nat) (b : Bool) :
    ((v &&& 254) ||| (if b then 1 else 0)) &&& 254 = v &&& 254 := by
  apply Nat.eq_of_testBit_eq
  intro i
  simp only [Nat.testBit_and, Nat.testBit_or]
  match i with
  | 0 =>
    have h254 : Nat.testBit 254 0 = false := by decide
    simp [h254]
  | j + 1 =>
    have hb : Nat.testBit (if b then 1 else 0) (j + 1) = false := by
      cases b <;> simp [Nat.testBit_succ, Nat.zero_testBit]
    rw [hb]
    simp

theorem writeBits_length : ∀ (flat : List Nat) (bits : List Bool),
    (writeBits flat bits).length = flat.length := by
  intro flat
  induction flat with
  | nil => intro bits; cases bits <;> rfl
  | cons v flat ih =>
    intro bits
    cases bits with
    | nil => rfl
    | cons b bs => simp [writeBits, ih]

theorem writeBits_map_lsb : ∀ (bits : List Bool) (flat : List Nat),
    bits.length ≤ flat.length →
    (writeBits flat bits).map lsb = bits ++ (flat.drop bits.length).map lsb := by
  intro bits
  induction bits with
  | nil => intro flat _; simp [writeBits]
  | cons b bs ih =>
    intro flat h
    cases flat with
    | nil => simp at h
    | cons v flat =>
      simp only [writeBits, List.map_cons, List.length_cons, List.drop_succ_cons]
      rw [lsb_write, ih flat (by simpa using h)]
      rfl

theorem writeBits_getD_lt : ∀ (bits : List Bool) (flat : List Nat) (i : Nat),
    i < bits.length → i < flat.length →
    (writeBits flat bits).getD i 0 =
      ((flat.getD i 0) &&& 254) ||| (if bits.getD i false then 1 else 0) := by
  intro bits
  induction bits with
  | nil => intro flat i h _; simp at h
  | cons b bs ih =>
    intro flat i h1 h2
    cases flat with
    | nil => simp at h2
    | cons v flat =>
      cases i with
      | zero => rfl
      | succ i =>
        simp only [writeBits, List.getD_cons_succ]
        exact ih flat i (by simpa using h1) (by simpa using h2)

theorem writeBits_getD_ge : ∀ (bits : List Bool) (flat : List Nat) (i : Nat),
    bits.length ≤ i →
    (writeBits flat bits).getD i 0 = flat.getD i 0 := by
  intro bits
  induction bits with
  | nil => intro flat i _; cases flat <;> rfl
  | cons b bs ih =>
    intro flat i h
    cases flat with
    | nil => rfl
    | cons v flat =>
      cases i with
      | zero => simp at h
      | succ i =>
        simp only [writeBits, List.getD_cons_succ]
        exact ih flat i (by simpa using h)

/-! ### The decode loop is the character-level scan -/


theorem decodeLoop_eq_scanChars : ∀ (rest : List Nat) (bits : List Bool),
    decodeLoop bits rest =
      scanChars (binary_to_text bits)
        (binary_to_text (bits.drop (8 * (bits.length / 8)) ++ rest.map lsb)) := by
  intro rest
  induction rest with
  | nil =>
    intro bits
    have hlen : (bits.drop (8 * (bits.length / 8))).length < 8 := by
      rw [List.length_drop]
      omega
    rw [List.map_nil, List.append_nil, binary_to_text_small hlen]
    rfl
  | cons v rest ih =>
    intro bits
    have hsplit : bits = bits.take (8 * (bits.length / 8)) ++ bits.drop (8 * (bits.length / 8)) :=
      (List.take_append_drop _ bits).symm
    have htlen : (bits.take (8 * (bits.length / 8))).length = 8 * (bits.length / 8) := by
      rw [List.length_take]
      omega
    have hdlen : (bits.drop (8 * (bits.length / 8))).length = bits.length % 8 := by
      rw [List.length_drop]
      omega
    have hb1 : bits ++ [lsb v]
        = bits.take (8 * (bits.length / 8)) ++ (bits.drop (8 * (bits.length / 8)) ++ [lsb v]) := by
      rw [← List.append_assoc, ← hsplit]
    have hsmall : binary_to_text (bits.drop (8 * (bits.length / 8))) = [] :=
      binary_to_text_small (by rw [hdlen]; omega)
    have hbits0 : binary_to_text bits = binary_to_text (bits.take (8 * (bits.length / 8))) := by
      conv_lhs => rw [hsplit]
      rw [binary_to_text_append (8 * (bits.length / 8)) _ _ htlen (by omega),
        hsmall, List.append_nil]
    by_cases hm : bits.length % 8 = 7
    · -- the new bit completes a character: the delimiter check fires
      have hcond : 8 ≤ (bits ++ [lsb v]).length ∧ (bits ++ [lsb v]).length % 8 = 0 := by
        refine ⟨?_, ?_⟩ <;>
          (simp only [List.length_append, List.length_cons, List.length_nil]; omega)
      have hbyte : (bits.drop (8 * (bits.length / 8)) ++ [lsb v]).length = 8 := by
        rw [List.length_append, hdlen, hm]
        rfl
      have e1 : binary_to_text (bits.drop (8 * (bits.length / 8)) ++ [lsb v])
          = [bitsToNat (bits.drop (8 * (bits.length / 8)) ++ [lsb v])] := by
        rw [binary_to_text_step (le_of_eq hbyte.symm),
          List.take_of_length_le (le_of_eq hbyte), List.drop_eq_nil_of_le (le_of_eq hbyte)]
        rfl
      have hbt' : binary_to_text (bits ++ [lsb v])
          = binary_to_text bits ++ [bitsToNat (bits.drop (8 * (bits.length / 8)) ++ [lsb v])] := by
        conv_lhs => rw [hb1]
        rw [binary_to_text_append (8 * (bits.length / 8)) _ _ htlen (by omega), e1, hbits0]
      have hrhs : binary_to_text (bits.drop (8 * (bits.length / 8)) ++ (v :: rest).map lsb)
          = bitsToNat (bits.drop (8 * (bits.length / 8)) ++ [lsb v])
              :: binary_to_text (rest.map lsb) := by
        rw [List.map_cons,
          show bits.drop (8 * (bits.length / 8)) ++ lsb v :: rest.map lsb
            = (bits.drop (8 * (bits.length / 8)) ++ [lsb v]) ++ rest.map lsb by simp,
          binary_to_text_append 8 _ _ hbyte (by omega), e1]
        rfl
      rw [decodeLoop, if_pos hcond, hrhs, scanChars]
      have hacc : binary_to_text bits
            ++ [bitsToNat (bits.drop (8 * (bits.length / 8)) ++ [lsb v])]
          = binary_to_text (bits ++ [lsb v]) := hbt'.symm
      by_cases hfound : hasSub DELIMITER (binary_to_text (bits ++ [lsb v])) = true
      · rw [if_pos hfound, if_pos (by rw [hacc]; exact hfound), hacc]
      · have hfound' : hasSub DELIMITER (binary_to_text (bits ++ [lsb v])) = false := by
          cases hw : hasSub DELIMITER (binary_to_text (bits ++ [lsb v]))
          · rfl
          · exact absurd hw hfound
        rw [if_neg (by rw [hfound']; simp), if_neg (by rw [hacc, hfound']; simp)]
        rw [ih (bits ++ [lsb v])]
        have hdrop0 : (bits ++ [lsb v]).drop (8 * ((bits ++ [lsb v]).length / 8)) = [] := by
          apply List.drop_eq_nil_of_le
          simp only [List.length_append, List.length_cons, List.length_nil]
          omega
        rw [hdrop0, List.nil_append, hbt', hacc]
    · -- mid-character: no check fires, the partial byte grows by one bit
      have hcond : ¬ (8 ≤ (bits ++ [lsb v]).length ∧ (bits ++ [lsb v]).length % 8 = 0) := by
        rintro ⟨h1, h2⟩
        simp only [List.length_append, List.length_cons, List.length_nil] at h2
        omega
      rw [decodeLoop, if_neg hcond, ih (bits ++ [lsb v])]
      have hq : (bits ++ [lsb v]).length / 8 = bits.length / 8 := by
        simp only [List.length_append, List.length_cons, List.length_nil]
        omega
      have hdrop : (bits ++ [lsb v]).drop (8 * ((bits ++ [lsb v]).length / 8))
          = bits.drop (8 * (bits.length / 8)) ++ [lsb v] := by
        rw [hq, List.drop_append_eq_append_drop]
        have h0 : 8 * (bits.length / 8) - bits.length = 0 := by omega
        rw [h0, List.drop_zero]
      have hpart : (bits.drop (8 * (bits.length / 8)) ++ [lsb v]).length < 8 := by
        rw [List.length_append, hdlen]
        simp only [List.length_cons, List.length_nil]
        omega
      have hbt : binary_to_text (bits ++ [lsb v]) = binary_to_text bits := by
        conv_lhs => rw [hb1]
        rw [binary_to_text_append (8 * (bits.length / 8)) _ _ htlen (by omega),
          binary_to_text_small hpart, List.append_nil, hbits0]
      rw [hdrop, hbt, List.map_cons,
        show bits.drop (8 * (bits.length / 8)) ++ lsb v :: rest.map lsb
          = (bits.drop (8 * (bits.length / 8)) ++ [lsb v]) ++ rest.map lsb by simp]

/-! ### Decoding an encoded buffer -/

theorem hasSub_delim_self : hasSub DELIMITER DELIMITER = true := by decide

theorem hasSub_nil_delim : hasSub DELIMITER [] = false := by decide

theorem encodeBuffer_eq_some (flat T : List Nat)
    (hle : (text_to_binary (T ++ DELIMITER)).length ≤ flat.length) :
    encodeBuffer flat T = some (writeBits flat (text_to_binary (T ++ DELIMITER))) := by
  simp only [encodeBuffer]
  rw [if_neg (by omega)]

theorem decodeBuffer_writeBits (flat T : List Nat)
    (hbyte : ∀ c ∈ T, c < 256)
    (hfit : 8 * (T.length + 7) ≤ flat.length) :
    decodeBuffer (writeBits flat (text_to_binary (T ++ DELIMITER)))
      = some (beforeFirst DELIMITER
          ((T ++ DELIMITER) ++
            binary_to_text ((flat.drop (8 * (T.length + 7))).map lsb))) := by
  have hB : (text_to_binary (T ++ DELIMITER)).length = 8 * (T.length + 7) :=
    text_to_binary_delim_length hbyte
  have hBle : (text_to_binary (T ++ DELIMITER)).length ≤ flat.length := by omega
  have hE : (writeBits flat (text_to_binary (T ++ DELIMITER))).map lsb
      = text_to_binary (T ++ DELIMITER)
          ++ (flat.drop (text_to_binary (T ++ DELIMITER)).length).map lsb :=
    writeBits_map_lsb _ flat hBle
  rw [decodeBuffer, decodeLoop_eq_scanChars]
  simp only [List.length_nil, Nat.zero_div, Nat.mul_zero, List.drop_nil, List.nil_append]
  rw [hE, hB]
  have hall : ∀ c ∈ T ++ DELIMITER, c < 256 := by
    intro c hc
    rcases List.mem_append.mp hc with hc | hc
    · exact hbyte c hc
    · exact delimiter_bytes c hc
  have hbt : binary_to_text
        (text_to_binary (T ++ DELIMITER) ++ (flat.drop (8 * (T.length + 7))).map lsb)
      = (T ++ DELIMITER) ++ binary_to_text ((flat.drop (8 * (T.length + 7))).map lsb) := by
    rw [binary_to_text_append ((text_to_binary (T ++ DELIMITER)).length) _ _ rfl
        (by rw [hB]; omega),
      binary_to_text_text_to_binary hall]
  rw [hbt]
  have hfound : hasSub DELIMITER
      ((T ++ DELIMITER) ++ binary_to_text ((flat.drop (8 * (T.length + 7))).map lsb)) = true :=
    hasSub_append_right _ (hasSub_append_left T hasSub_delim_self)
  have := scanChars_found
    ((T ++ DELIMITER) ++ binary_to_text ((flat.drop (8 * (T.length + 7))).map lsb)) []
    hasSub_nil_delim (by rw [List.nil_append]; exact hfound)
  rw [List.nil_append] at this
  rw [show binary_to_text [] = [] from rfl]
  exact this

theorem decodeBuffer_writeBits_of_no_delim (flat T : List Nat)
    (hbyte : ∀ c ∈ T, c < 256)
    (hfit : 8 * (T.length + 7) ≤ flat.length)
    (hnd : hasSub DELIMITER T = false) :
    decodeBuffer (writeBits flat (text_to_binary (T ++ DELIMITER))) = some T := by
  rw [decodeBuffer_writeBits flat T hbyte hfit]
  congr 1
  rw [List.append_assoc]
  exact beforeFirst_append_delim _ (no_delim_before _ hnd)

theorem decodeBuffer_writeBits_of_delim (flat T : List Nat)
    (hbyte : ∀ c ∈ T, c < 256)
    (hfit : 8 * (T.length + 7) ≤ flat.length)
    (hd : hasSub DELIMITER T = true) :
    decodeBuffer (writeBits flat (text_to_binary (T ++ DELIMITER)))
      = some (beforeFirst DELIMITER T) := by
  rw [decodeBuffer_writeBits flat T hbyte hfit]
  congr 1
  rw [beforeFirst_append_of_hasSub _ (hasSub_append_right DELIMITER hd),
    beforeFirst_append_of_hasSub _ hd]

/-! ### Capacity arithmetic -/

theorem get_max_capacity_ok (img : RGBImage) :
    get_max_capacity (Except.ok img)
      = ((img.width : Int) * (img.height : Int) * 3 - 56) / 8 := by
  simp only [get_max_capacity, delimiter_length]
  rw [Int.fdiv_eq_ediv _ (by omega)]
  norm_num

theorem fit_of_capacity (img : RGBImage) (T : List Nat)
    (hlen : img.data.length = img.width * img.height * 3)
    (hcap : 1 ≤ get_max_capacity (Except.ok img))
    (hT : (T.length : Int) ≤ get_max_capacity (Except.ok img)) :
    8 * (T.length + 7) ≤ img.data.length := by
  rw [get_max_capacity_ok img] at hcap hT
  have hN : (img.width : Int) * (img.height : Int) = ((img.width * img.height : Nat) : Int) := by
    push_cast
    ring
  rw [hN] at hcap hT
  rw [hlen]
  generalize img.width * img.height = N at hcap hT ⊢
  omega

theorem text_to_binary_length_gt {t : List Nat} (h : ∃ c ∈ t, 256 ≤ c) :
    8 * t.length < (text_to_binary t).length := by
  induction t with
  | nil => simp at h
  | cons c t ih =>
    rw [text_to_binary_cons]
    rcases h with ⟨x, hx, hxc⟩
    rcases List.mem_cons.mp hx with rfl | hx'
    · have h1 := format08b_length_gt hxc
      have h2 := text_to_binary_length_ge t
      simp only [List.length_append, List.length_cons]
      omega
    · have h1 := format08b_length_ge c
      have h2 := ih ⟨x, hx', hxc⟩
      simp only [List.length_append, List.length_cons]
      omega

theorem append_ne_empty_of_left (p e : String) (hp : 0 < p.length) : p ++ e ≠ "" := by
  intro h
  have h2 := congrArg String.length h
  rw [String.length_append] at h2
  have h3 : String.length "" = 0 := rfl
  rw [h3] at h2
  omega

/-! ## Claim theorems -/

set_option maxRecDepth 1000000 in
/-- C1 fails as stated: it quantifies over every payload with
`len(T) ≤ capacity`, but a payload that itself contains `<<END>>` is truncated
by decode.  Concretely, for a 6×7 carrier (capacity 8) and the payload
`"<<END>>"` itself (7 characters), encode succeeds but decode does not return
the payload. -/
theorem roundtrip_claim_counterexample :
    (List.replicate 126 (0 : Nat)).length = 6 * 7 * 3 ∧
    1 ≤ get_max_capacity (Except.ok ⟨6, 7, List.replicate 126 0⟩) ∧
    ((DELIMITER.length : Int) ≤ get_max_capacity (Except.ok ⟨6, 7, List.replicate 126 0⟩)) ∧
    (encodeBuffer (List.replicate 126 0) DELIMITER).isSome = true ∧
    decodeBuffer ((encodeBuffer (List.replicate 126 0) DELIMITER).getD []) ≠ some DELIMITER := by
  decide

/-- C1 (amended): for every carrier buffer of capacity at least `1` and every
payload `T` of 8-bit characters (code points `< 256`, the codec's data model)
that does not contain the literal delimiter `<<END>>`, with
`len(T) ≤ capacity`, decoding the encoded buffer succeeds with exactly `T`. -/
theorem roundtrip_amended (img : RGBImage) (T : List Nat)
    (hlen : img.data.length = img.width * img.height * 3)
    (hcap : 1 ≤ get_max_capacity (Except.ok img))
    (hT : (T.length : Int) ≤ get_max_capacity (Except.ok img))
    (hbyte : ∀ c ∈ T, c < 256)
    (hnd : hasSub DELIMITER T = false) :
    encodeBuffer img.data T = some (writeBits img.data (text_to_binary (T ++ DELIMITER))) ∧
    decodeBuffer (writeBits img.data (text_to_binary (T ++ DELIMITER))) = some T ∧
    decodeFull (Except.ok
        ⟨img.width, img.height, writeBits img.data (text_to_binary (T ++ DELIMITER))⟩)
      = (true, Sum.inl T) := by
  have hfit := fit_of_capacity img T hlen hcap hT
  have hB : (text_to_binary (T ++ DELIMITER)).length = 8 * (T.length + 7) :=
    text_to_binary_delim_length hbyte
  have hdec := decodeBuffer_writeBits_of_no_delim img.data T hbyte hfit hnd
  exact ⟨encodeBuffer_eq_some _ _ (by omega), hdec, by simp only [decodeFull, hdec]⟩

set_option maxRecDepth 1000000 in
/-- Witness for the amended C1 at a concrete 6×7 all-zero carrier and the
one-character payload `"A"`. -/
theorem roundtrip_amended_witness :
    encodeBuffer (List.replicate 126 0) [65]
        = some (writeBits (List.replicate 126 0) (text_to_binary ([65] ++ DELIMITER))) ∧
    decodeBuffer (writeBits (List.replicate 126 0) (text_to_binary ([65] ++ DELIMITER)))
        = some [65] ∧
    decodeFull (Except.ok
        ⟨6, 7, writeBits (List.replicate 126 0) (text_to_binary ([65] ++ DELIMITER))⟩)
      = (true, Sum.inl [65]) :=
  roundtrip_amended ⟨6, 7, List.replicate 126 0⟩ [65]
    (by decide) (by decide) (by decide) (by decide) (by decide)

/-- C2 fails as stated: the source computes `available_bits // 8` with
Python's floor division and never clamps, so a 1×1 carrier reports capacity
`-7` rather than `max 0 ((3 - 56) // 8) = 0`. -/
theorem capacity_clamp_counterexample :
    ¬ (get_max_capacity (Except.ok ⟨1, 1, [0, 0, 0]⟩)
        = max 0 (Int.fdiv ((1 * 1 * 3 : Int) - 56) 8)) := by
  decide

/-- C2 (amended): for every readable carrier the capacity calculator returns
`(w*h*3 - 56) // 8` (floor division) with no clamping; the result is negative
exactly when the carrier is smaller than the 56-bit terminator. -/
theorem capacity_formula_amended (w h : Nat) (d : List Nat) :
    get_max_capacity (Except.ok ⟨w, h, d⟩) = Int.fdiv ((w * h * 3 : Int) - 56) 8 ∧
    (get_max_capacity (Except.ok ⟨w, h, d⟩) < 0 ↔ w * h * 3 < 56) := by
  have hN : ((w : Int) * (h : Int)) = ((w * h : Nat) : Int) := by push_cast; ring
  constructor
  · simp only [get_max_capacity, delimiter_length]
    congr 1
  · rw [get_max_capacity_ok]
    simp only
    rw [hN]
    generalize w * h = N
    omega

/-- C3: if the payload-plus-terminator bitstream (8·(len+7) bits for 8-bit
characters) exceeds the flattened buffer, encode fails with the oversized
message before writing any channel and produces no output buffer. -/
theorem oversized_rejected (img : RGBImage) (T : List Nat)
    (hbyte : ∀ c ∈ T, c < 256)
    (hover : img.data.length < 8 * (T.length + 7)) :
    encodeFull (Except.ok img) T
        = ((false,
            "Error: Image too small to hide this message. Try a larger image or shorter text."),
            none) ∧
    encodeBuffer img.data T = none := by
  have hB := text_to_binary_delim_length hbyte
  have henc : encodeBuffer img.data T = none := by
    simp only [encodeBuffer]
    rw [if_pos (by omega)]
  exact ⟨by simp only [encodeFull, henc], henc⟩

/-- Witness for C3: a 1×1 carrier (3 channels) cannot even hold the
terminator of the empty payload. -/
theorem oversized_rejected_witness :
    encodeFull (Except.ok ⟨1, 1, [0, 0, 0]⟩) []
        = ((false,
            "Error: Image too small to hide this message. Try a larger image or shorter text."),
            none) ∧
    encodeBuffer [0, 0, 0] [] = none :=
  oversized_rejected ⟨1, 1, [0, 0, 0]⟩ [] (by decide) (by decide)

/-- C4: for every accepted encode, output channels under the bitstream length
agree with the input on all bits except bit 0 (`v' &&& 0xFE = v &&& 0xFE`),
and channels at or beyond the bitstream length are unchanged. -/
theorem lsb_only_mutation (flat T : List Nat)
    (hacc : (text_to_binary (T ++ DELIMITER)).length ≤ flat.length) :
    encodeBuffer flat T = some (writeBits flat (text_to_binary (T ++ DELIMITER))) ∧
    (writeBits flat (text_to_binary (T ++ DELIMITER))).length = flat.length ∧
    (∀ i, i < flat.length →
      (i < (text_to_binary (T ++ DELIMITER)).length →
        ((writeBits flat (text_to_binary (T ++ DELIMITER))).getD i 0) &&& 254
          = (flat.getD i 0) &&& 254) ∧
      ((text_to_binary (T ++ DELIMITER)).length ≤ i →
        (writeBits flat (text_to_binary (T ++ DELIMITER))).getD i 0 = flat.getD i 0)) := by
  refine ⟨encodeBuffer_eq_some flat T hacc, writeBits_length flat _, ?_⟩
  intro i hi
  constructor
  · intro hlt
    rw [writeBits_getD_lt _ flat i hlt hi, mask_write]
  · intro hge
    exact writeBits_getD_ge _ flat i hge

/-- Witness for C4 on a 64-channel buffer of value 7 with the empty payload:
a touched index keeps its high bits, an untouched index keeps its value. -/
theorem lsb_only_mutation_witness :
    encodeBuffer (List.replicate 64 7) []
        = some (writeBits (List.replicate 64 7) (text_to_binary ([] ++ DELIMITER))) ∧
    ((writeBits (List.replicate 64 7) (text_to_binary ([] ++ DELIMITER))).getD 0 0) &&& 254
        = ((List.replicate 64 (7 : Nat)).getD 0 0) &&& 254 ∧
    (writeBits (List.replicate 64 7) (text_to_binary ([] ++ DELIMITER))).getD 60 0
        = (List.replicate 64 (7 : Nat)).getD 60 0 := by
  have h := lsb_only_mutation (List.replicate 64 7) [] (by decide)
  exact ⟨h.1, (h.2.2 0 (by decide)).1 (by decide), (h.2.2 60 (by decide)).2 (by decide)⟩

/-- C5: a payload that itself contains the literal `<<END>>` round-trips to
only the portion strictly before its first occurrence, which is a proper
truncation of the payload. -/
theorem terminator_literal_truncation (flat T : List Nat)
    (hbyte : ∀ c ∈ T, c < 256)
    (hfit : 8 * (T.length + 7) ≤ flat.length)
    (hd : hasSub DELIMITER T = true) :
    encodeBuffer flat T = some (writeBits flat (text_to_binary (T ++ DELIMITER))) ∧
    decodeBuffer (writeBits flat (text_to_binary (T ++ DELIMITER)))
        = some (beforeFirst DELIMITER T) ∧
    beforeFirst DELIMITER T ≠ T := by
  have hB : (text_to_binary (T ++ DELIMITER)).length = 8 * (T.length + 7) :=
    text_to_binary_delim_length hbyte
  refine ⟨encodeBuffer_eq_some flat T (by omega),
    decodeBuffer_writeBits_of_delim flat T hbyte hfit hd, ?_⟩
  intro h
  have := beforeFirst_length_of_hasSub hd
  rw [h] at this
  omega

/-- Witness for C5 with the payload `"<<END>>"` itself on a 120-channel
carrier: decode returns the empty prefix. -/
theorem terminator_literal_truncation_witness :
    encodeBuffer (List.replicate 120 0) DELIMITER
        = some (writeBits (List.replicate 120 0) (text_to_binary (DELIMITER ++ DELIMITER))) ∧
    decodeBuffer (writeBits (List.replicate 120 0) (text_to_binary (DELIMITER ++ DELIMITER)))
        = some (beforeFirst DELIMITER DELIMITER) ∧
    beforeFirst DELIMITER DELIMITER ≠ DELIMITER :=
  terminator_literal_truncation (List.replicate 120 0) DELIMITER
    (by decide) (by decide) (by decide)

/-- C6: if the buffer's LSB stream, decoded into characters, never contains
`<<END>>`, the scan exhausts the whole buffer and decode reports the
no-message failure. -/
theorem no_message_found (img : RGBImage)
    (h : hasSub DELIMITER (binary_to_text (img.data.map lsb)) = false) :
    decodeBuffer img.data = none ∧
    decodeFull (Except.ok img)
      = (false, Sum.inr
          "No hidden message found in this image. Make sure you're using an image that was encoded with this tool.") := by
  have hdec : decodeBuffer img.data = none := by
    rw [decodeBuffer, decodeLoop_eq_scanChars]
    simp only [List.length_nil, Nat.zero_div, Nat.mul_zero, List.drop_nil, List.nil_append]
    exact scanChars_none _ _ h
  exact ⟨hdec, by simp only [decodeFull, hdec]⟩

/-- Witness for C6: an all-zero 24-channel buffer decodes to no message. -/
theorem no_message_found_witness :
    decodeBuffer (List.replicate 24 0) = none ∧
    decodeFull (Except.ok ⟨1, 8, List.replicate 24 0⟩)
      = (false, Sum.inr
          "No hidden message found in this image. Make sure you're using an image that was encoded with this tool.") :=
  no_message_found ⟨1, 8, List.replicate 24 0⟩ (by decide)

/-- C7: for texts of 8-bit characters the bitstream has exactly 8 bits per
character and `binary_to_text` inverts `text_to_binary`. -/
theorem text_binary_roundtrip (t : List Nat) (h : ∀ c ∈ t, c < 256) :
    (text_to_binary t).length = 8 * t.length ∧
    binary_to_text (text_to_binary t) = t :=
  ⟨text_to_binary_length_of_bytes h, binary_to_text_text_to_binary h⟩

/-- Witness for C7 on the text `"Hi"`. -/
theorem text_binary_roundtrip_witness :
    (text_to_binary [72, 105]).length = 8 * ([72, 105] : List Nat).length ∧
    binary_to_text (text_to_binary [72, 105]) = [72, 105] :=
  text_binary_roundtrip [72, 105] (by decide)

/-- C8: the codec boundary always returns a structured result: `encodeFull`
either succeeds or returns `false` with a nonempty message and no output
buffer; `decodeFull` either succeeds or returns `false` with a nonempty
message; `get_max_capacity` returns the sentinel `0` on any fault. -/
theorem no_fault_escape (img : Except String RGBImage) (s : List Nat) :
    ((encodeFull img s).1.1 = true ∨
      ((encodeFull img s).1.1 = false ∧ (encodeFull img s).1.2 ≠ ""
        ∧ (encodeFull img s).2 = none)) ∧
    ((decodeFull img).1 = true ∨
      ((decodeFull img).1 = false ∧ ∃ m, (decodeFull img).2 = Sum.inr m ∧ m ≠ "")) ∧
    (∀ e, get_max_capacity (Except.error e) = 0) := by
  refine ⟨?_, ?_, fun e => rfl⟩
  · cases img with
    | error e =>
      right
      exact ⟨rfl, append_ne_empty_of_left "Error during encoding: " e (by decide), rfl⟩
    | ok img =>
      cases henc : encodeBuffer img.data s with
      | none =>
        right
        refine ⟨by simp [encodeFull, henc], ?_, by simp [encodeFull, henc]⟩
        simp only [encodeFull, henc]
        decide
      | some out =>
        left
        simp [encodeFull, henc]
  · cases img with
    | error e =>
      right
      exact ⟨rfl, "Error during decoding: " ++ e, rfl,
        append_ne_empty_of_left "Error during decoding: " e (by decide)⟩
    | ok img =>
      cases hdec : decodeBuffer img.data with
      | some m =>
        left
        simp [decodeFull, hdec]
      | none =>
        right
        refine ⟨by simp [decodeFull, hdec],
          "No hidden message found in this image. Make sure you're using an image that was encoded with this tool.",
          by simp [decodeFull, hdec], by decide⟩

/-- C9: a character with code point above 255 is rendered with more than 8
bits (`'08b'` pads but never truncates), so the bitstream outgrows
`8 · len`, the fixed 8-bit regrouping no longer inverts the conversion, and
the 8-bits-per-character law holds exactly for texts of code points `< 256`. -/
theorem wide_char_breaks_eight_bits :
    8 < (format08b 256).length ∧
    (∃ c ∈ ([256] : List Nat), 255 < c) ∧
    8 * ([256] : List Nat).length < (text_to_binary [256]).length ∧
    binary_to_text (text_to_binary [256]) ≠ [256] ∧
    (∀ t : List Nat, (text_to_binary t).length = 8 * t.length ↔ ∀ c ∈ t, c < 256) := by
  refine ⟨by decide, by decide, by decide, by decide, ?_⟩
  intro t
  constructor
  · intro h c hc
    by_contra hge
    have := text_to_binary_length_gt ⟨c, hc, by omega⟩
    omega
  · exact text_to_binary_length_of_bytes

/-- C10: the codec imposes no non-emptiness check: on any buffer with at
least 56 channels the empty payload encodes (embedding only the terminator)
and decodes back to the empty text. -/
theorem empty_payload_roundtrip (flat : List Nat) (h56 : 56 ≤ flat.length) :
    encodeBuffer flat [] = some (writeBits flat (text_to_binary ([] ++ DELIMITER))) ∧
    decodeBuffer (writeBits flat (text_to_binary ([] ++ DELIMITER))) = some [] := by
  have hB : (text_to_binary (([] : List Nat) ++ DELIMITER)).length = 8 * (0 + 7) :=
    text_to_binary_delim_length (by simp)
  have hfit : 8 * (([] : List Nat).length + 7) ≤ flat.length := by
    simp only [List.length_nil]
    omega
  exact ⟨encodeBuffer_eq_some flat [] (by omega),
    decodeBuffer_writeBits_of_no_delim flat [] (by simp) hfit (by decide)⟩

/-- Witness for C10 on a 56-channel all-zero buffer. -/
theorem empty_payload_roundtrip_witness :
    encodeBuffer (List.replicate 56 0) []
        = some (writeBits (List.replicate 56 0) (text_to_binary ([] ++ DELIMITER))) ∧
    decodeBuffer (writeBits (List.replicate 56 0) (text_to_binary ([] ++ DELIMITER)))
        = some [] :=
  empty_payload_roundtrip (List.replicate 56 0) (by decide)

end Stego
